import Mathlib

/-!
Shallow embedding of the review-consolidation pipeline
(`merge_reviews.py` and `MappingSentiments/SentimentSummary_ML.py`).

Strings are modelled as Lean `String` / `List Char`; numeric ratios as `ℚ`;
the external inference oracles (sentiment classifier, summarizer) as
explicit function parameters returning `Except`/`Option` so a raised
exception is an explicit error value.
-/

namespace MergeReviews

/-! ## Normalizer (`normalize_text`, merge_reviews.py lines 100-108)

Python: lowercase, `re.sub(r"\s+", " ", s)`, `re.sub(r"[^0-9a-z\s]", "", s)`,
`s.strip()`.  `\s` (and `str.strip`) match the Unicode whitespace set. -/

/-- Codepoints matched by Python's `\s` / stripped by `str.strip`. -/
def isPySpace (c : Char) : Bool :=
  c.toNat ∈ [9, 10, 11, 12, 13, 28, 29, 30, 31, 32, 133, 160, 0x1680,
    0x2000, 0x2001, 0x2002, 0x2003, 0x2004, 0x2005, 0x2006, 0x2007, 0x2008,
    0x2009, 0x200a, 0x2028, 0x2029, 0x202f, 0x205f, 0x3000]

/-- ASCII lowercasing of one character (`str.lower`). -/
def lowerChar (c : Char) : Char :=
  if 65 ≤ c.toNat ∧ c.toNat ≤ 90 then Char.ofNat (c.toNat + 32) else c

/-- `re.sub(r"\s+", " ", s)`: each maximal whitespace run becomes one `' '`.
The flag records whether the previous character was part of a run. -/
def collapseWs : Bool → List Char → List Char
  | _, [] => []
  | prevSp, c :: cs =>
    if isPySpace c then
      if prevSp then collapseWs true cs else ' ' :: collapseWs true cs
    else c :: collapseWs false cs

/-- Character kept by `re.sub(r"[^0-9a-z\s]", "", s)`. -/
def keepChar (c : Char) : Bool :=
  (48 ≤ c.toNat && c.toNat ≤ 57) || (97 ≤ c.toNat && c.toNat ≤ 122) || isPySpace c

/-- `str.strip()`: drop whitespace from both ends. -/
def stripEnds (l : List Char) : List Char :=
  (((l.dropWhile isPySpace).reverse).dropWhile isPySpace).reverse

/-- `normalize_text` on the character list. -/
def normList (l : List Char) : List Char :=
  stripEnds (((collapseWs false (l.map lowerChar))).filter keepChar)

/-- `normalize_text` (merge_reviews.py lines 100-108). -/
def normalize_text (s : String) : String :=
  String.mk (normList s.data)

/-! ## Overall sentiment verdict (SentimentSummary_ML.py lines 169-175) -/

/-- The overall-sentiment tie-break computed per location. -/
def overallSentiment (pos neg neu : Nat) : String :=
  if neg ≤ pos ∧ neu ≤ pos then "positive"
  else if pos < neg ∧ neu ≤ neg then "negative"
  else "neutral"

/-! ## Chunking (SentimentSummary_ML.py lines 99-100)

`comment_chunks = [all_comments[i:i+CHUNK_SIZE] for i in range(0, len(all_comments), CHUNK_SIZE)]`
with `CHUNK_SIZE = 3500`. -/

def CHUNK_SIZE : Nat := 3500

/-- The chunk list of a comment blob. -/
def comment_chunks (s : List Char) : List (List Char) :=
  match s with
  | [] => []
  | c :: cs => (c :: cs).take CHUNK_SIZE :: comment_chunks ((c :: cs).drop CHUNK_SIZE)
termination_by s.length
decreasing_by simp [CHUNK_SIZE]; omega

/-! ## Sentiment classifier orchestration (SentimentSummary_ML.py lines 24-35)

The HuggingFace pipeline call is an oracle `List Char → Except ε (List Char)`;
an `Except.error` models a raised exception.  The Python body has no
`try`/`except`, so an oracle error is returned as-is (it propagates). -/

/-- `classify_sentiment`, parameterized by the sentiment oracle. -/
def classify_sentiment (oracle : List Char → Except (List Char) (List Char))
    (text : List Char) : Except (List Char) (List Char) :=
  if stripEnds text = [] then .ok "neutral".data
  else
    match oracle (text.take 512) with
    | .error e => .error e
    | .ok label =>
      .ok (if label = "LABEL_2".data then "positive".data
           else if label = "LABEL_0".data then "negative".data
           else "neutral".data)

/-! ## Exact deduplication (merge_reviews.py lines 249-254)

`merged['norm_comment'] = merged['comment'].apply(normalize_text)`,
`merged['name_norm'] = merged['name'].fillna('').astype(str).str.strip().str.lower()`,
then `drop_duplicates(subset=['name_norm', 'norm_comment', 'date'], keep='first')`. -/

/-- One canonical record of the combined dataset (fields used by the pass). -/
structure MRec where
  name : String
  comment : String
  date : String
  rating : String
  deriving DecidableEq, Repr

/-- `str.strip().str.lower()` applied to the name column. -/
def nameNorm (s : String) : String :=
  String.mk ((stripEnds s.data).map lowerChar)

/-- The triple `(name_norm, norm_comment, date)` used as dedup key. -/
def recKey (r : MRec) : String × String × String :=
  (nameNorm r.name, normalize_text r.comment, r.date)

/-- `drop_duplicates(..., keep='first')`: keep a record iff its key was not
seen among earlier records. -/
def dropDupAux (seen : List (String × String × String)) : List MRec → List MRec
  | [] => []
  | r :: rs =>
    if recKey r ∈ seen then dropDupAux seen rs
    else r :: dropDupAux (recKey r :: seen) rs

/-- The exact-deduplication pass of `main`. -/
def drop_duplicates (l : List MRec) : List MRec :=
  dropDupAux [] l

/-! ## Hierarchical chunked summarization (SentimentSummary_ML.py lines 103-166)

The summarizer pipeline call is an oracle
`chunk → max_length → min_length → Option summary`; `none` models a raised
exception (caught by the surrounding `try`/`except`). -/

/-- Type of the summarizer oracle. -/
def Summarizer : Type := List Char → Nat → Nat → Option (List Char)

def SHORT_TEXT_THRESHOLD : Nat := 1000

def FINAL_TEXT_THRESHOLD : Nat := 500

/-- `dynamic_max_length = min(150, chunk_len // 3)`. -/
def dynMaxLen (l : Nat) : Nat := min 150 (l / 3)

/-- `safe_min_length = max(10, min(20, m - 5))`. -/
def safeMinLen (m : Nat) : Nat := max 10 (min 20 (m - 5))

/-- Body of the first-level loop for one chunk: `none` means the iteration
contributed nothing to `initial_summaries` (a `continue`). -/
def firstLevelStep (sm : Summarizer) (chunk : List Char) : Option (List Char) :=
  if stripEnds chunk = [] then none
  else if chunk.length < SHORT_TEXT_THRESHOLD then some (stripEnds chunk)
  else sm chunk (dynMaxLen chunk.length) (safeMinLen (dynMaxLen chunk.length))

/-- `initial_summaries` after the first-level loop. -/
def firstLevel (sm : Summarizer) (chunks : List (List Char)) : List (List Char) :=
  chunks.filterMap (firstLevelStep sm)

/-- The fixed fallback summary string. -/
def placeholderSummary : List Char :=
  "No meaningful summary could be generated.".data

/-- The whole per-location summary computation, from the joined comment blob. -/
def locationSummary (sm : Summarizer) (allComments : List Char) : List Char :=
  let combined := List.intercalate [' '] (firstLevel sm (comment_chunks allComments))
  if combined ≠ [] then
    if combined.length < FINAL_TEXT_THRESHOLD then combined
    else
      match sm combined (min 120 (combined.length / 3))
          (safeMinLen (min 120 (combined.length / 3))) with
      | some s => s
      | none => combined
  else placeholderSummary

/-! ## difflib.SequenceMatcher ratio

The grouper scores `difflib.SequenceMatcher(None, rep, nc).ratio()`.
With `isjunk=None` the junk set is empty; `autojunk` drops characters of `b`
occurring more than `len(b)//100 + 1` times when `len(b) >= 200` from the
index `b2j` (they can still be picked up by the extension loops of
`find_longest_match`).  `ratio = 2*M / (len(a)+len(b))`, or `1.0` when both
strings are empty, where `M` sums the sizes of the matching blocks. -/

/-- Default character used for (never-reached) out-of-range list reads. -/
def nulC : Char := Char.ofNat 0

/-- Ascending occurrence positions of `c` in `b` (the `b2j` entry before
autojunk filtering). -/
def occIdx (b : List Char) (c : Char) : List Nat :=
  (List.range b.length).filter (fun j => b.getD j nulC = c)

/-- Autojunk: `c` is "popular" in `b`. -/
def isPopular (b : List Char) (c : Char) : Bool :=
  decide (200 ≤ b.length) && decide (b.length / 100 + 1 < (occIdx b c).length)

/-- The `b2j` index after autojunk filtering. -/
def b2j (b : List Char) (c : Char) : List Nat :=
  if isPopular b c then [] else occIdx b c

/-- `j2len.get(j, 0)` on the association list representing the DP row. -/
def lookup0 (m : List (Nat × Nat)) (j : Nat) : Nat :=
  match m.find? (fun p => p.1 = j) with
  | some p => p.2
  | none => 0

/-- Inner loop of `find_longest_match` for row `i`: walk the candidate
`j` positions, building the new DP row and updating the best block
(`if k > bestsize`).  Python's `j-1` is `-1` when `j = 0`, hitting the
dictionary default `0`. -/
def flmInner (i : Nat) : List Nat → List (Nat × Nat) → List (Nat × Nat) →
    Nat × Nat × Nat → List (Nat × Nat) × (Nat × Nat × Nat)
  | [], _, acc, best => (acc, best)
  | j :: js, old, acc, best =>
    let k := (if j = 0 then 0 else lookup0 old (j - 1)) + 1
    let best' := if best.2.2 < k then (i + 1 - k, j + 1 - k, k) else best
    flmInner i js old ((j, k) :: acc) best'

/-- Outer loop of `find_longest_match` over the rows `i ∈ [alo, ahi)`.
Python `continue`s on `j < blo` and `break`s at `j ≥ bhi`; as the position
lists are ascending this visits exactly the positions in `[blo, bhi)`. -/
def flmLoop (a bs : List Char) (blo bhi : Nat) :
    List Nat → List (Nat × Nat) → Nat × Nat × Nat → Nat × Nat × Nat
  | [], _, best => best
  | i :: is, old, best =>
    let cands := (b2j bs (a.getD i nulC)).filter
      (fun j => decide (blo ≤ j) && decide (j < bhi))
    let (new, best') := flmInner i cands old [] best
    flmLoop a bs blo bhi is new best'

/-- Left extension loop of `find_longest_match` (the junk set is empty, so
only the plain-equality extension loops run).  The loop decrements `besti`
while `besti > alo`, so recursing structurally on `besti` is exact. -/
def extL (a bs : List Char) (alo blo : Nat) : Nat → Nat → Nat → Nat × Nat × Nat
  | 0, bj, k => (0, bj, k)
  | bi + 1, bj, k =>
    if alo < bi + 1 ∧ blo < bj ∧ a.getD bi nulC = bs.getD (bj - 1) nulC then
      extL a bs alo blo bi (bj - 1) (k + 1)
    else (bi + 1, bj, k)

/-- Right extension loop of `find_longest_match`: the loop increments
`bestsize` while `besti + bestsize < ahi`, so it runs at most
`ahi - (besti + bestsize)` times; that count is passed as structural fuel,
and when it reaches `0` the loop guard is false anyway. -/
def extRAux (a bs : List Char) (ahi bhi bi bj : Nat) : Nat → Nat → Nat
  | 0, k => k
  | fuel + 1, k =>
    if bi + k < ahi ∧ bj + k < bhi ∧ a.getD (bi + k) nulC = bs.getD (bj + k) nulC then
      extRAux a bs ahi bhi bi bj fuel (k + 1)
    else k

/-- Right extension loop of `find_longest_match`. -/
def extR (a bs : List Char) (ahi bhi : Nat) (bi bj k : Nat) : Nat :=
  extRAux a bs ahi bhi bi bj (ahi - (bi + k)) k

/-- `find_longest_match(alo, ahi, blo, bhi)` returning `(besti, bestj, bestsize)`. -/
def findLongestMatch (a bs : List Char) (alo ahi blo bhi : Nat) : Nat × Nat × Nat :=
  let best := flmLoop a bs blo bhi (List.range' alo (ahi - alo)) [] (alo, blo, 0)
  let ext := extL a bs alo blo best.1 best.2.1 best.2.2
  (ext.1, ext.2.1, extR a bs ahi bhi ext.1 ext.2.1 ext.2.2)

/-- Total size of the matching blocks of `get_matching_blocks`, restricted to
the window `[alo,ahi) × [blo,bhi)`: recurse on both sides of the longest
match.  The fuel argument bounds the recursion depth; the top-level call
passes `ahi + bhi + 1`, which dominates the depth since every sub-window is
strictly smaller on both axes. -/
def mbSum (a bs : List Char) : Nat → Nat → Nat → Nat → Nat → Nat
  | 0, _, _, _, _ => 0
  | fuel + 1, alo, ahi, blo, bhi =>
    let m := findLongestMatch a bs alo ahi blo bhi
    let i := m.1
    let j := m.2.1
    let k := m.2.2
    if k = 0 then 0
    else k + (if alo < i ∧ blo < j then mbSum a bs fuel alo i blo j else 0)
           + (if i + k < ahi ∧ j + k < bhi then mbSum a bs fuel (i + k) ahi (j + k) bhi else 0)

/-- `SequenceMatcher(None, a, b).ratio()` as an exact rational:
`2*M / (len(a)+len(b))`, and `1` when both strings are empty. -/
def ratioOf (a bs : List Char) : ℚ :=
  if a.length + bs.length = 0 then 1
  else mkRat (2 * (mbSum a bs (a.length + bs.length + 1) 0 a.length 0 bs.length))
       (a.length + bs.length)

/-! ## Fuzzy duplicate grouper (`dedupe_across_locations`, merge_reviews.py
lines 121-154)

A review row carries its comment (already `fillna('')`-ed to a string); the
loop reads `row['norm_comment'] = normalize_text(comment)`.  A group keeps
its live representative (the `reps` list entry) and its member rows. -/

/-- One input review row (fields relevant to grouping). -/
structure Review where
  name : String
  comment : String
  deriving DecidableEq, Repr

/-- One group: live representative plus appended member rows. -/
structure RGroup where
  rep : List Char
  rows : List Review
  deriving DecidableEq, Repr

/-- Scan the existing groups in creation order: skip groups with an empty
representative (`if not rep: continue`), place the review into the first
group whose representative scores at least the threshold (`break`), updating
the representative when the incoming normalized comment is strictly longer.
`none` means no group matched (`placed` stays false). -/
def placeReview (t : ℚ) (r : Review) (nc : List Char) :
    List RGroup → Option (List RGroup)
  | [] => none
  | g :: gs =>
    if g.rep ≠ [] ∧ t ≤ ratioOf g.rep nc then
      some ({ rep := if g.rep.length < nc.length then nc else g.rep,
              rows := g.rows ++ [r] } :: gs)
    else
      match placeReview t r nc gs with
      | some gs' => some (g :: gs')
      | none => none

/-- One iteration of the grouping loop for one review row. -/
def grouperStep (t : ℚ) (gs : List RGroup) (r : Review) : List RGroup :=
  let nc := normList r.comment.data
  match placeReview t r nc gs with
  | some gs' => gs'
  | none => gs ++ [{ rep := nc, rows := [r] }]

/-- The grouping pass of `dedupe_across_locations` over the rows in input
order. -/
def dedupe_across_locations (t : ℚ) (rows : List Review) : List RGroup :=
  rows.foldl (grouperStep t) []

/-! ## Theorems -/

theorem comment_chunks_eq_nil_iff (s : List Char) : comment_chunks s = [] ↔ s = [] := by
  cases s with
  | nil => simp [comment_chunks]
  | cons c cs => rw [comment_chunks]; simp

/-- C2 counterexample: on sentiment counts `(positive, negative, neutral) = (2, 3, 3)`
the code returns `"negative"`, not `"neutral"` as the claim asserts. -/
theorem overallSentiment_233_not_neutral : overallSentiment 2 3 3 ≠ "neutral" := by
  decide

/-- C2 (amended): the overall verdict is `"positive"` iff
`positive ≥ negative ∧ positive ≥ neutral`; otherwise `"negative"` iff
`negative > positive ∧ negative ≥ neutral`; otherwise `"neutral"`.  On the
concrete counts: `(3,3,0) ↦ "positive"`, `(2,3,3) ↦ "negative"` (not
`"neutral"` as claimed), `(1,4,2) ↦ "negative"`. -/
theorem overallSentiment_characterization (p n u : Nat) :
    (overallSentiment p n u = "positive" ↔ (n ≤ p ∧ u ≤ p)) ∧
    (overallSentiment p n u = "negative" ↔ ¬(n ≤ p ∧ u ≤ p) ∧ (p < n ∧ u ≤ n)) ∧
    (overallSentiment p n u = "neutral" ↔ ¬(n ≤ p ∧ u ≤ p) ∧ ¬(p < n ∧ u ≤ n)) ∧
    overallSentiment 3 3 0 = "positive" ∧
    overallSentiment 2 3 3 = "negative" ∧
    overallSentiment 1 4 2 = "negative" := by
  unfold overallSentiment
  refine ⟨?_, ?_, ?_, by decide, by decide, by decide⟩ <;>
    split_ifs with h1 h2 <;> simp_all

/-- C5: the chunking step covers the blob exactly: concatenating the chunks
in order reproduces the blob, no chunk exceeds the 3500-character budget,
and every chunk except the last has exactly the budget size (only the final
chunk may be shorter). -/
theorem comment_chunks_spec (s : List Char) :
    (comment_chunks s).flatten = s ∧
    (comment_chunks s).all (fun c => decide (c.length ≤ CHUNK_SIZE)) = true ∧
    (comment_chunks s).dropLast.all (fun c => decide (c.length = CHUNK_SIZE)) = true := by
  induction s using comment_chunks.induct with
  | case1 => simp [comment_chunks]
  | case2 c cs ih =>
    obtain ⟨ih1, ih2, ih3⟩ := ih
    rw [comment_chunks]
    refine ⟨by simp [ih1], by simp [ih2, List.length_take], ?_⟩
    by_cases hd : (c :: cs).drop CHUNK_SIZE = []
    · simp [hd, comment_chunks, List.dropLast]
    · have hlen : CHUNK_SIZE ≤ (c :: cs).length := by
        by_contra hlt
        exact hd (List.drop_of_length_le (le_of_not_le hlt))
      have hne : comment_chunks ((c :: cs).drop CHUNK_SIZE) ≠ [] := by
        simpa [comment_chunks_eq_nil_iff] using hd
      rw [List.dropLast_cons_of_ne_nil hne]
      simp at hlen
      simp [List.length_take, ih3]
      omega

/-- C4 counterexample: an oracle failure inside `classify_sentiment` is not
caught: it propagates to the caller instead of yielding `"neutral"`. -/
theorem classify_sentiment_propagates :
    classify_sentiment (fun _ => .error "boom".data) "hello".data
      = .error "boom".data ∧
    Except.error "boom".data ≠ Except.ok (α := List Char) "neutral".data :=
  ⟨rfl, by simp⟩

/-- C4 (amended): empty or whitespace-only text yields `neutral` without
invoking the oracle, but when the oracle raises on non-blank text the error
propagates out of `classify_sentiment` (there is no `try`/`except` around
the sentiment call). -/
theorem classify_sentiment_amended (oracle : List Char → Except (List Char) (List Char))
    (text : List Char) :
    (stripEnds text = [] → classify_sentiment oracle text = .ok "neutral".data) ∧
    (∀ e, stripEnds text ≠ [] → oracle (text.take 512) = .error e →
      classify_sentiment oracle text = .error e) := by
  constructor
  · intro h
    simp [classify_sentiment, h]
  · intro e h he
    simp [classify_sentiment, h, he]

theorem classify_sentiment_amended_witness :
    classify_sentiment (fun _ => .error "b".data) [] = .ok "neutral".data ∧
    classify_sentiment (fun _ => .error "b".data) "hi".data = .error "b".data :=
  ⟨(classify_sentiment_amended (fun _ => .error "b".data) []).1 rfl,
   (classify_sentiment_amended (fun _ => .error "b".data) "hi".data).2
     "b".data (by decide) rfl⟩

/-- C6: when the first-level loop contributes nothing, the location summary
is the fixed placeholder string; in particular this happens when every chunk
either strips to blank or is long (≥ 1000) with a failing summarizer call. -/
theorem locationSummary_placeholder (sm : Summarizer) (blob : List Char) :
    (firstLevel sm (comment_chunks blob) = [] →
      locationSummary sm blob = placeholderSummary) ∧
    ((∀ c ∈ comment_chunks blob, stripEnds c = [] ∨
        (SHORT_TEXT_THRESHOLD ≤ c.length ∧
          sm c (dynMaxLen c.length) (safeMinLen (dynMaxLen c.length)) = none)) →
      locationSummary sm blob = placeholderSummary) := by
  constructor
  · intro h
    unfold locationSummary
    rw [h]
    simp [List.intercalate]
  · intro h
    unfold locationSummary
    have h0 : firstLevel sm (comment_chunks blob) = [] := by
      rw [firstLevel, List.filterMap_eq_nil_iff]
      intro c hc
      rcases h c hc with hb | ⟨hl, hn⟩
      · simp [firstLevelStep, hb]
      · simp [firstLevelStep, hn, Nat.not_lt.mpr hl]
    rw [h0]
    simp [List.intercalate]

theorem locationSummary_placeholder_witness :
    locationSummary (fun _ _ _ => none) [] = placeholderSummary :=
  (locationSummary_placeholder (fun _ _ _ => none) []).1
    (by simp [comment_chunks, firstLevel])

/-- C9 counterexample: a non-empty chunk of length `< 1000` with surrounding
whitespace is not passed through unchanged: the code appends
`chunk.strip()`, which differs from the chunk. -/
theorem first_level_strips_short_chunk :
    " hi ".data ≠ [] ∧ " hi ".data.length < SHORT_TEXT_THRESHOLD ∧
    firstLevelStep (fun _ _ _ => none) " hi ".data = some "hi".data ∧
    "hi".data ≠ " hi ".data :=
  ⟨by decide, by decide, rfl, by decide⟩

/-- C9 (amended): for every chunk shorter than the 1000-character threshold,
if the chunk strips to blank it is skipped, otherwise the *stripped* chunk
text is appended, and in both cases the summarizer oracle is not consulted
(the outcome is the same for every oracle). -/
theorem first_level_short_chunk (sm : Summarizer) (chunk : List Char)
    (hlen : chunk.length < SHORT_TEXT_THRESHOLD) :
    (stripEnds chunk = [] → firstLevelStep sm chunk = none) ∧
    (stripEnds chunk ≠ [] → firstLevelStep sm chunk = some (stripEnds chunk)) ∧
    (∀ sm' : Summarizer, firstLevelStep sm' chunk = firstLevelStep sm chunk) := by
  refine ⟨fun h => by simp [firstLevelStep, h], fun h => by simp [firstLevelStep, h, hlen],
    fun sm' => ?_⟩
  by_cases h : stripEnds chunk = []
  · simp [firstLevelStep, h]
  · simp [firstLevelStep, h, hlen]

theorem first_level_short_chunk_witness :
    firstLevelStep (fun _ _ _ => none) "hi".data = some (stripEnds "hi".data) :=
  ((first_level_short_chunk (fun _ _ _ => none) "hi".data (by decide)).2.1 (by decide))

/-- The claim's description of the exact-dedup pass: walking the input in
order, a record survives iff its key triple does not occur among the records
that precede it in the input. -/
def firstOccurrences (pre : List MRec) : List MRec → List MRec
  | [] => []
  | r :: rs =>
    if recKey r ∈ pre.map recKey then firstOccurrences (pre ++ [r]) rs
    else r :: firstOccurrences (pre ++ [r]) rs

theorem dropDupAux_eq_firstOccurrences (l : List MRec)
    (seen : List (String × String × String)) (pre : List MRec)
    (hs : ∀ k, k ∈ seen ↔ k ∈ pre.map recKey) :
    dropDupAux seen l = firstOccurrences pre l := by
  induction l generalizing seen pre with
  | nil => simp [dropDupAux, firstOccurrences]
  | cons r rs ih =>
    rw [dropDupAux, firstOccurrences]
    by_cases h : recKey r ∈ seen
    · rw [if_pos h, if_pos ((hs _).mp h)]
      refine ih seen (pre ++ [r]) (fun k => ?_)
      have hr := (hs _).mp h
      rw [hs k]
      simp only [List.map_append, List.mem_append, List.map_cons, List.map_nil,
        List.mem_singleton, List.not_mem_nil, or_false, List.mem_cons]
      constructor
      · exact Or.inl
      · rintro (hk | hk)
        · exact hk
        · rw [hk]; exact hr
    · rw [if_neg h, if_neg (fun hk => h ((hs _).mpr hk))]
      refine congrArg (r :: ·) (ih (recKey r :: seen) (pre ++ [r]) (fun k => ?_))
      have hk := hs k
      simp only [List.map_append, List.mem_append, List.map_cons, List.map_nil,
        List.mem_singleton, List.not_mem_nil, or_false, List.mem_cons] at *
      tauto

theorem dropDupAux_sublist (seen : List (String × String × String)) (l : List MRec) :
    List.Sublist (dropDupAux seen l) l := by
  induction l generalizing seen with
  | nil => simp [dropDupAux]
  | cons r rs ih =>
    rw [dropDupAux]
    by_cases h : recKey r ∈ seen
    · rw [if_pos h]
      exact (ih seen).trans (List.sublist_cons_self r rs)
    · rw [if_neg h]
      exact (ih (recKey r :: seen)).cons₂ r

theorem dropDupAux_not_mem_seen (seen : List (String × String × String))
    (l : List MRec) :
    ∀ k ∈ (dropDupAux seen l).map recKey, k ∉ seen := by
  induction l generalizing seen with
  | nil => simp [dropDupAux]
  | cons r rs ih =>
    rw [dropDupAux]
    by_cases h : recKey r ∈ seen
    · rw [if_pos h]; exact ih seen
    · rw [if_neg h]
      intro k hk
      simp only [List.map_cons, List.mem_cons] at hk
      rcases hk with rfl | hk
      · exact h
      · intro hks
        exact ih (recKey r :: seen) k hk (List.mem_cons_of_mem _ hks)

theorem dropDupAux_nodup_keys (seen : List (String × String × String))
    (l : List MRec) : ((dropDupAux seen l).map recKey).Nodup := by
  induction l generalizing seen with
  | nil => simp [dropDupAux]
  | cons r rs ih =>
    rw [dropDupAux]
    by_cases h : recKey r ∈ seen
    · rw [if_pos h]; exact ih seen
    · rw [if_neg h]
      simp only [List.map_cons, List.nodup_cons]
      refine ⟨fun hk => ?_, ih (recKey r :: seen)⟩
      exact dropDupAux_not_mem_seen _ _ _ hk (List.mem_cons_self _ _)

theorem dropDupAux_covers (seen : List (String × String × String)) (l : List MRec) :
    ∀ r ∈ l, recKey r ∈ seen ∨ recKey r ∈ (dropDupAux seen l).map recKey := by
  induction l generalizing seen with
  | nil => simp
  | cons r rs ih =>
    intro x hx
    rw [dropDupAux]
    by_cases h : recKey r ∈ seen
    · rw [if_pos h]
      rcases List.mem_cons.mp hx with rfl | hx
      · exact Or.inl h
      · exact ih seen x hx
    · rw [if_neg h]
      rcases List.mem_cons.mp hx with rfl | hx
      · exact Or.inr (by simp)
      · rcases ih (recKey r :: seen) x hx with hsn | hout
        · rcases List.mem_cons.mp hsn with he | hsn
          · exact Or.inr (by simp [he])
          · exact Or.inl hsn
        · exact Or.inr (by simp only [List.map_cons]; exact List.mem_cons_of_mem _ hout)

/-- C7: the exact-deduplication pass equals the claim's description (keep a
record iff its `(normalized_name, normalized_comment, date)` triple does not
occur earlier in input order), is order-preserving (its output is a sublist
of its input), leaves no repeated key triple, and keeps a representative of
every input key triple.  It is a pure function, hence deterministic. -/
theorem drop_duplicates_spec (l : List MRec) :
    drop_duplicates l = firstOccurrences [] l ∧
    List.Sublist (drop_duplicates l) l ∧
    ((drop_duplicates l).map recKey).Nodup ∧
    (∀ r ∈ l, recKey r ∈ (drop_duplicates l).map recKey) := by
  refine ⟨dropDupAux_eq_firstOccurrences l [] [] (by simp), dropDupAux_sublist [] l,
    dropDupAux_nodup_keys [] l, fun r hr => ?_⟩
  rcases dropDupAux_covers [] l r hr with h | h
  · simp at h
  · exact h

/-! ### Normalizer analysis (C3)

Output characters of `normalize_text` are digits, lowercase ASCII letters
and spaces, and on such strings the only effect of a further pass is to
re-collapse space runs.  Because the punctuation strip runs *after* the
whitespace collapse, it can create new adjacent spaces, so a second pass is
not a no-op in general — but a third is. -/

/-- Characters that can appear in normalizer output. -/
def isDChar (c : Char) : Prop :=
  (48 ≤ c.toNat ∧ c.toNat ≤ 57) ∨ (97 ≤ c.toNat ∧ c.toNat ≤ 122) ∨ c = ' '

/-- No two adjacent spaces. -/
def noTwoSpaces (l : List Char) : Prop :=
  List.Chain' (fun x y => ¬(x = ' ' ∧ y = ' ')) l

theorem isPySpace_space : isPySpace ' ' = true := by decide

theorem not_isPySpace_of_D {c : Char} (hD : isDChar c) (hne : c ≠ ' ') :
    isPySpace c = false := by
  rcases hD with h | h | h
  · unfold isPySpace
    simp only [List.mem_cons, List.not_mem_nil, decide_eq_false_iff_not, or_false]
    push_neg
    omega
  · unfold isPySpace
    simp only [List.mem_cons, List.not_mem_nil, decide_eq_false_iff_not, or_false]
    push_neg
    omega
  · exact absurd h hne

theorem lowerChar_of_D {c : Char} (hD : isDChar c) : lowerChar c = c := by
  have hno : ¬(65 ≤ c.toNat ∧ c.toNat ≤ 90) := by
    rcases hD with h | h | h
    · omega
    · omega
    · subst h; decide
  simp [lowerChar, hno]

theorem keepChar_of_D {c : Char} (hD : isDChar c) : keepChar c = true := by
  simp only [keepChar, Bool.or_eq_true, Bool.and_eq_true, decide_eq_true_eq]
  rcases hD with h | h | h
  · exact Or.inl (Or.inl h)
  · exact Or.inl (Or.inr h)
  · exact Or.inr (h ▸ isPySpace_space)

theorem collapseWs_space_mem (c : Char) (l : List Char) :
    ∀ b, c ∈ collapseWs b l → isPySpace c = true → c = ' ' := by
  induction l with
  | nil => intro b h; simp [collapseWs] at h
  | cons a as ih =>
    intro b hmem hsp
    rw [collapseWs] at hmem
    by_cases ha : isPySpace a
    · rw [if_pos ha] at hmem
      cases b with
      | true => exact ih true hmem hsp
      | false =>
        simp only [if_false, Bool.false_eq_true] at hmem
        rcases List.mem_cons.mp hmem with rfl | hmem
        · rfl
        · exact ih true hmem hsp
    · rw [if_neg ha] at hmem
      rcases List.mem_cons.mp hmem with rfl | hmem
      · exact absurd hsp (by simpa using ha)
      · exact ih false hmem hsp

theorem collapseWs_D (l : List Char) (hD : ∀ c ∈ l, isDChar c) :
    ∀ b, ∀ c ∈ collapseWs b l, isDChar c := by
  induction l with
  | nil => intro b c h; simp [collapseWs] at h
  | cons a as ih =>
    intro b c hc
    have hDas : ∀ x ∈ as, isDChar x := fun x hx => hD x (List.mem_cons_of_mem _ hx)
    rw [collapseWs] at hc
    by_cases ha : isPySpace a
    · rw [if_pos ha] at hc
      cases b with
      | true => exact ih hDas true c hc
      | false =>
        simp only [if_false, Bool.false_eq_true] at hc
        rcases List.mem_cons.mp hc with rfl | hc
        · exact Or.inr (Or.inr rfl)
        · exact ih hDas true c hc
    · rw [if_neg ha] at hc
      rcases List.mem_cons.mp hc with rfl | hc
      · exact hD c (List.mem_cons_self _ _)
      · exact ih hDas false c hc

theorem collapseWs_head_true (l : List Char) :
    ∀ a, (collapseWs true l).head? = some a → isPySpace a = false := by
  induction l with
  | nil => intro a h; simp [collapseWs] at h
  | cons c cs ih =>
    intro a h
    rw [collapseWs] at h
    by_cases hc : isPySpace c
    · rw [if_pos hc] at h
      exact ih a h
    · rw [if_neg hc] at h
      simp only [List.head?_cons, Option.some.injEq] at h
      subst h
      simpa using hc

theorem collapseWs_chain (l : List Char) :
    ∀ b, noTwoSpaces (collapseWs b l) := by
  induction l with
  | nil => intro b; simp [collapseWs, noTwoSpaces]
  | cons c cs ih =>
    intro b
    rw [collapseWs]
    by_cases hc : isPySpace c
    · rw [if_pos hc]
      cases b with
      | true => exact ih true
      | false =>
        simp only [if_false, Bool.false_eq_true]
        refine List.chain'_cons'.mpr ⟨fun y hy => ?_, ih true⟩
        rintro ⟨-, rfl⟩
        exact absurd (collapseWs_head_true cs ' ' hy) (by simp [isPySpace_space])
    · rw [if_neg hc]
      refine List.chain'_cons'.mpr ⟨fun y hy => ?_, ih false⟩
      rintro ⟨rfl, -⟩
      exact hc (by simp [isPySpace_space])

theorem collapseWs_id (l : List Char) (hD : ∀ c ∈ l, isDChar c)
    (hch : noTwoSpaces l) :
    collapseWs false l = l ∧ ((∀ a ∈ l.head?, a ≠ ' ') → collapseWs true l = l) := by
  induction l with
  | nil => exact ⟨rfl, fun _ => rfl⟩
  | cons c cs ih =>
    have hDc : isDChar c := hD c (List.mem_cons_self _ _)
    have hDcs : ∀ x ∈ cs, isDChar x := fun x hx => hD x (List.mem_cons_of_mem _ hx)
    rw [noTwoSpaces, List.chain'_cons'] at hch
    obtain ⟨hhd, hch'⟩ := hch
    obtain ⟨ih1, ih2⟩ := ih hDcs hch'
    by_cases hc : c = ' '
    · subst hc
      have h1 : collapseWs true cs = cs :=
        ih2 (fun a ha hae => (hhd a ha) ⟨rfl, hae⟩)
      refine ⟨?_, fun ha => absurd rfl (ha ' ' rfl)⟩
      rw [collapseWs, if_pos isPySpace_space]
      simp only [if_false, Bool.false_eq_true]
      rw [h1]
    · have hns : isPySpace c = false := not_isPySpace_of_D hDc hc
      constructor
      · rw [collapseWs, if_neg (by simp [hns]), ih1]
      · intro _
        rw [collapseWs, if_neg (by simp [hns]), ih1]

theorem filter_keep_of_D (l : List Char) (hD : ∀ c ∈ l, isDChar c) :
    l.filter keepChar = l :=
  List.filter_eq_self.mpr (fun c hc => keepChar_of_D (hD c hc))

theorem dropWhile_head_not (p : Char → Bool) (l : List Char) :
    ∀ a, (l.dropWhile p).head? = some a → p a = false := by
  induction l with
  | nil => intro a h; simp at h
  | cons c cs ih =>
    intro a h
    rw [List.dropWhile_cons] at h
    by_cases hc : p c
    · rw [if_pos hc] at h
      exact ih a h
    · rw [if_neg hc] at h
      simp only [List.head?_cons, Option.some.injEq] at h
      subst h
      simpa using hc

theorem dropWhile_eq_self_of_head (p : Char → Bool) (l : List Char)
    (h : ∀ a, l.head? = some a → p a = false) : l.dropWhile p = l := by
  cases l with
  | nil => rfl
  | cons c cs =>
    rw [List.dropWhile_cons, if_neg]
    simp [h c rfl]

theorem prefix_head_eq {P W : List Char} (h : List.IsPrefix P W) :
    ∀ a, P.head? = some a → W.head? = some a := by
  rcases h with ⟨t, rfl⟩
  intro a ha
  cases P with
  | nil => simp at ha
  | cons c cs => simpa using ha

theorem stripEnds_subset {l : List Char} {c : Char} (h : c ∈ stripEnds l) : c ∈ l := by
  unfold stripEnds at h
  rw [List.mem_reverse] at h
  have h2 := (List.dropWhile_suffix isPySpace).sublist.subset h
  rw [List.mem_reverse] at h2
  exact (List.dropWhile_suffix isPySpace).sublist.subset h2

theorem noTwoSpaces_reverse {l : List Char} (h : noTwoSpaces l) :
    noTwoSpaces l.reverse := by
  unfold noTwoSpaces at h ⊢
  rw [List.chain'_reverse]
  exact h.imp (fun a b hab hba => hab ⟨hba.2, hba.1⟩)

theorem stripEnds_chain {l : List Char} (h : noTwoSpaces l) :
    noTwoSpaces (stripEnds l) := by
  unfold stripEnds
  have h1 : noTwoSpaces (l.dropWhile isPySpace) :=
    h.suffix (List.dropWhile_suffix isPySpace)
  have h2 := noTwoSpaces_reverse h1
  have h3 : noTwoSpaces ((l.dropWhile isPySpace).reverse.dropWhile isPySpace) :=
    h2.suffix (List.dropWhile_suffix isPySpace)
  exact noTwoSpaces_reverse h3

theorem stripEnds_prefix_dropWhile (l : List Char) :
    List.IsPrefix (stripEnds l) (l.dropWhile isPySpace) := by
  unfold stripEnds
  have hsuf : List.IsSuffix (((l.dropWhile isPySpace).reverse).dropWhile isPySpace)
      ((l.dropWhile isPySpace).reverse) := List.dropWhile_suffix isPySpace
  have := List.reverse_prefix.mpr hsuf
  rwa [List.reverse_reverse] at this

theorem stripEnds_head (l : List Char) :
    ∀ a, (stripEnds l).head? = some a → isPySpace a = false := by
  intro a ha
  exact dropWhile_head_not isPySpace l a
    (prefix_head_eq (stripEnds_prefix_dropWhile l) a ha)

theorem stripEnds_getLast (l : List Char) :
    ∀ a, (stripEnds l).getLast? = some a → isPySpace a = false := by
  intro a ha
  unfold stripEnds at ha
  rw [List.getLast?_reverse] at ha
  exact dropWhile_head_not isPySpace _ a ha

theorem stripEnds_id (l : List Char)
    (h1 : ∀ a, l.head? = some a → isPySpace a = false)
    (h2 : ∀ a, l.getLast? = some a → isPySpace a = false) : stripEnds l = l := by
  unfold stripEnds
  rw [dropWhile_eq_self_of_head _ _ h1]
  rw [dropWhile_eq_self_of_head _ _ (fun a ha => h2 a (by rwa [List.head?_reverse] at ha))]
  exact List.reverse_reverse l

theorem map_lower_of_D (l : List Char) (hD : ∀ c ∈ l, isDChar c) :
    l.map lowerChar = l := by
  rw [List.map_congr_left (fun a ha => lowerChar_of_D (hD a ha))]
  exact List.map_id' l

theorem normList_alphabet (l : List Char) : ∀ c ∈ normList l, isDChar c := by
  intro c hc
  have hc' := stripEnds_subset hc
  rw [List.mem_filter] at hc'
  obtain ⟨hmem, hkeep⟩ := hc'
  simp only [keepChar, Bool.or_eq_true, Bool.and_eq_true, decide_eq_true_eq] at hkeep
  rcases hkeep with (h | h) | h
  · exact Or.inl h
  · exact Or.inr (Or.inl h)
  · exact Or.inr (Or.inr (collapseWs_space_mem c _ false hmem h))

theorem normList_canonical (m : List Char) (hD : ∀ c ∈ m, isDChar c) :
    (∀ c ∈ normList m, isDChar c) ∧ noTwoSpaces (normList m) ∧
    (∀ a, (normList m).head? = some a → isPySpace a = false) ∧
    (∀ a, (normList m).getLast? = some a → isPySpace a = false) := by
  have hCD : ∀ c ∈ collapseWs false (m.map lowerChar), isDChar c := by
    rw [map_lower_of_D m hD]
    exact collapseWs_D m hD false
  have hfil : (collapseWs false (m.map lowerChar)).filter keepChar
      = collapseWs false (m.map lowerChar) := filter_keep_of_D _ hCD
  refine ⟨normList_alphabet m, ?_, ?_, ?_⟩
  · unfold normList
    rw [hfil]
    exact stripEnds_chain (collapseWs_chain _ false)
  · unfold normList
    exact stripEnds_head _
  · unfold normList
    exact stripEnds_getLast _

theorem normList_id_of_canonical (t : List Char) (hD : ∀ c ∈ t, isDChar c)
    (hch : noTwoSpaces t)
    (hh : ∀ a, t.head? = some a → isPySpace a = false)
    (hl : ∀ a, t.getLast? = some a → isPySpace a = false) : normList t = t := by
  unfold normList
  rw [map_lower_of_D t hD, (collapseWs_id t hD hch).1, filter_keep_of_D t hD]
  exact stripEnds_id t hh hl

/-- C3 counterexample: `normalize_text` is not idempotent.  On `"a !! b"`
the whitespace collapse runs before the punctuation strip, so stripping
`"!!"` leaves two adjacent spaces (`"a  b"`), which a second pass collapses
to `"a b"`. -/
theorem normalize_text_not_idempotent :
    normalize_text (normalize_text "a !! b") ≠ normalize_text "a !! b" := by
  decide

/-- C3 (amended): `normalize_text` is pure and total by construction, but
idempotence fails because the punctuation strip (which runs after the
whitespace collapse) can merge two spaces; a second application is a
fixpoint: `normalize(normalize(normalize x)) = normalize(normalize x)` for
every string `x`. -/
theorem normalize_text_twice_fixpoint (s : String) :
    normalize_text (normalize_text (normalize_text s)) =
      normalize_text (normalize_text s) := by
  have h1 : ∀ c ∈ normList s.data, isDChar c := normList_alphabet s.data
  obtain ⟨a2, c2, hh2, hl2⟩ := normList_canonical (normList s.data) h1
  show String.mk (normList (String.mk (normList (String.mk (normList s.data)).data)).data)
      = String.mk (normList (String.mk (normList s.data)).data)
  exact congrArg String.mk (normList_id_of_canonical _ a2 c2 hh2 hl2)

/-! ### Duplicate grouper analysis (C1, C8, C10) -/

/-- The group update on a match: append the row, and replace the
representative when the incoming normalized comment is strictly longer. -/
def joinGroup (g : RGroup) (r : Review) (nc : List Char) : RGroup :=
  { rep := if g.rep.length < nc.length then nc else g.rep, rows := g.rows ++ [r] }

/-- The assignment rule exactly as the claim states it: the review goes to
the earliest-created group whose representative scores at least the
threshold; otherwise a new singleton group is opened. -/
def claimedStep (t : ℚ) (gs : List RGroup) (r : Review) : List RGroup :=
  let nc := normList r.comment.data
  match gs.findIdx? (fun g => decide (t ≤ ratioOf g.rep nc)) with
  | some i => gs.modify (fun g => joinGroup g r nc) i
  | none => gs ++ [{ rep := nc, rows := [r] }]

def claimedGrouper (t : ℚ) (rows : List Review) : List RGroup :=
  rows.foldl (claimedStep t) []

/-- The claim's rule amended with the code's skip of groups whose
representative is empty (`if not rep: continue`). -/
def amendedStep (t : ℚ) (gs : List RGroup) (r : Review) : List RGroup :=
  let nc := normList r.comment.data
  match gs.findIdx? (fun g => !g.rep.isEmpty && decide (t ≤ ratioOf g.rep nc)) with
  | some i => gs.modify (fun g => joinGroup g r nc) i
  | none => gs ++ [{ rep := nc, rows := [r] }]

def amendedGrouper (t : ℚ) (rows : List Review) : List RGroup :=
  rows.foldl (amendedStep t) []

/-- C1 counterexample: two reviews with empty normalized comments, at
threshold `1`.  The similarity score of two empty representatives is `1 ≥ 1`,
so the claimed rule assigns the second review to the first group (one group),
but the code skips groups with empty representatives and opens a second
group. -/
theorem grouper_differs_from_claimed :
    (claimedGrouper 1 [{ name := "n", comment := "" },
        { name := "n", comment := "" }]).length = 1 ∧
    (dedupe_across_locations 1 [{ name := "n", comment := "" },
        { name := "n", comment := "" }]).length = 2 := by
  decide

theorem placeReview_eq_findIdx (t : ℚ) (r : Review) (nc : List Char)
    (gs : List RGroup) :
    placeReview t r nc gs =
      (gs.findIdx? (fun g => !g.rep.isEmpty && decide (t ≤ ratioOf g.rep nc))).map
        (fun i => gs.modify (fun g => joinGroup g r nc) i) := by
  induction gs with
  | nil => simp [placeReview]
  | cons g gs ih =>
    rw [placeReview, List.findIdx?_cons]
    by_cases h : g.rep ≠ [] ∧ t ≤ ratioOf g.rep nc
    · have hemp : g.rep.isEmpty = false := by
        cases hcr : g.rep with
        | nil => exact absurd hcr h.1
        | cons x xs => rfl
      have hb : (!g.rep.isEmpty && decide (t ≤ ratioOf g.rep nc)) = true := by
        simp [hemp, h.2]
      rw [if_pos h, if_pos hb]
      simp [List.modify, joinGroup]
    · have hb : (!g.rep.isEmpty && decide (t ≤ ratioOf g.rep nc)) = false := by
        by_cases hrep : g.rep = []
        · simp [hrep]
        · have hle : ¬ t ≤ ratioOf g.rep nc := fun hle => h ⟨hrep, hle⟩
          simp [hle]
      rw [if_neg h, if_neg (by simp [hb])]
      rw [List.findIdx?_succ, ih]
      cases hfi : gs.findIdx? (fun g => !g.rep.isEmpty && decide (t ≤ ratioOf g.rep nc)) with
      | none => simp
      | some i => simp [List.modify]

theorem grouperStep_eq_amendedStep (t : ℚ) : grouperStep t = amendedStep t := by
  funext gs r
  rw [grouperStep, amendedStep, placeReview_eq_findIdx]
  cases gs.findIdx? (fun g => !g.rep.isEmpty &&
      decide (t ≤ ratioOf g.rep (normList r.comment.data))) with
  | none => simp
  | some i => simp

/-- C1 (amended): the grouping pass of `dedupe_across_locations` implements
exactly the claimed online rule — scan the existing groups in creation
order, assign the review to the earliest group whose representative scores
at least the threshold, replace the representative when the new normalized
comment is strictly longer, open a new singleton group when nothing
matches — amended in one point: groups whose representative is the empty
string are skipped without being scored. -/
theorem dedupe_across_locations_eq_amended (t : ℚ) (rows : List Review) :
    dedupe_across_locations t rows = amendedGrouper t rows := by
  unfold dedupe_across_locations amendedGrouper
  rw [grouperStep_eq_amendedStep]

theorem mbSum_nil_right (a : List Char) (fuel alo ahi : Nat) :
    mbSum a [] fuel alo ahi 0 0 = 0 := by
  cases fuel with
  | zero => rfl
  | succ n =>
    rw [mbSum]
    have hloop : ∀ is old best, flmLoop a [] 0 0 is old best = best := by
      intro is
      induction is with
      | nil => intro old best; rfl
      | cons i is ih =>
        intro old best
        rw [flmLoop]
        have hb : b2j [] (a.getD i nulC) = [] := by simp [b2j, occIdx]
        rw [hb]
        exact ih [] best
    have hextL : extL a [] alo 0 alo 0 0 = (alo, 0, 0) := by
      cases alo with
      | zero => rfl
      | succ m =>
        rw [extL, if_neg]
        rintro ⟨-, h2, -⟩
        omega
    have hextR : ∀ f bi bj, extRAux a [] ahi 0 bi bj f 0 = 0 := by
      intro f bi bj
      cases f with
      | zero => rfl
      | succ m =>
        rw [extRAux, if_neg]
        rintro ⟨-, h2, -⟩
        omega
    simp only [findLongestMatch, hloop, hextL, extR, hextR]
    simp

theorem ratioOf_nil_right (a : List Char) (ha : a ≠ []) : ratioOf a [] = 0 := by
  unfold ratioOf
  rw [if_neg (by simpa using ha)]
  simp only [List.length_nil, Nat.add_zero]
  rw [mbSum_nil_right]
  simp [Rat.mkRat_eq_div]

theorem placeReview_empty_comment (t : ℚ) (ht : 0 < t) (r : Review)
    (gs : List RGroup) : placeReview t r [] gs = none := by
  induction gs with
  | nil => rfl
  | cons g gs ih =>
    have hcond : ¬(g.rep ≠ [] ∧ t ≤ ratioOf g.rep []) := by
      rintro ⟨hrep, hle⟩
      rw [ratioOf_nil_right g.rep hrep] at hle
      exact absurd (lt_of_lt_of_le ht hle) (lt_irrefl 0)
    rw [placeReview, if_neg hcond, ih]

theorem placeReview_some_preserves (t : ℚ) (r : Review) (nc : List Char)
    (gs gs' : List RGroup)
    (hinv : ∀ g ∈ gs, g.rep = [] → g.rows.length = 1)
    (hp : placeReview t r nc gs = some gs') :
    ∀ g ∈ gs', g.rep = [] → g.rows.length = 1 := by
  induction gs generalizing gs' with
  | nil => simp [placeReview] at hp
  | cons g gs ih =>
    rw [placeReview] at hp
    by_cases h : g.rep ≠ [] ∧ t ≤ ratioOf g.rep nc
    · rw [if_pos h] at hp
      obtain rfl := Option.some.inj hp
      intro g' hg' hrep'
      rcases List.mem_cons.mp hg' with rfl | hg'
      · exfalso
        simp only [joinGroup] at hrep'
        by_cases hlen : g.rep.length < nc.length
        · rw [if_pos hlen] at hrep'
          rw [hrep'] at hlen
          simp at hlen
        · rw [if_neg hlen] at hrep'
          exact h.1 hrep'
      · exact hinv g' (List.mem_cons_of_mem _ hg') hrep'
    · rw [if_neg h] at hp
      cases hrec : placeReview t r nc gs with
      | none => rw [hrec] at hp; simp at hp
      | some gs'' =>
        rw [hrec] at hp
        obtain rfl := Option.some.inj hp
        intro g' hg' hrep'
        rcases List.mem_cons.mp hg' with rfl | hg'
        · exact hinv g' (List.mem_cons_self _ _) hrep'
        · exact ih gs'' (fun x hx => hinv x (List.mem_cons_of_mem _ hx)) hrec g' hg' hrep'

theorem grouperStep_empty_rep_invariant (t : ℚ) (gs : List RGroup) (r : Review)
    (hinv : ∀ g ∈ gs, g.rep = [] → g.rows.length = 1) :
    ∀ g ∈ grouperStep t gs r, g.rep = [] → g.rows.length = 1 := by
  rw [grouperStep]
  cases hp : placeReview t r (normList r.comment.data) gs with
  | none =>
    intro g hg hrep
    rcases List.mem_append.mp hg with hg | hg
    · exact hinv g hg hrep
    · rw [List.mem_singleton.mp hg]; rfl
  | some gs' => exact placeReview_some_preserves t r _ gs gs' hinv hp

/-- C10: with a positive threshold, a review whose normalized comment is
empty is never placed into an existing group — the step appends a fresh
singleton group for it — and, since groups with empty representative are
skipped by the scan and a representative is only ever replaced by a strictly
longer comment, every group of the final output whose representative is the
empty string has exactly one member. -/
theorem empty_comment_singleton_groups (t : ℚ) (ht : 0 < t) (rows : List Review)
    (gs : List RGroup) (r : Review) :
    (normList r.comment.data = [] →
      grouperStep t gs r = gs ++ [{ rep := [], rows := [r] }]) ∧
    (∀ g ∈ dedupe_across_locations t rows, g.rep = [] → g.rows.length = 1) := by
  constructor
  · intro hnc
    rw [grouperStep, hnc, placeReview_empty_comment t ht r gs]
  · unfold dedupe_across_locations
    have : ∀ (init : List RGroup), (∀ g ∈ init, g.rep = [] → g.rows.length = 1) →
        ∀ g ∈ rows.foldl (grouperStep t) init, g.rep = [] → g.rows.length = 1 := by
      induction rows with
      | nil => intro init hinit; simpa using hinit
      | cons r' rs ih =>
        intro init hinit
        rw [List.foldl_cons]
        exact ih _ (grouperStep_empty_rep_invariant t init r' hinit)
    exact this [] (by simp)

theorem empty_comment_singleton_groups_witness :
    grouperStep 1 [] { name := "n", comment := "!!" } =
      [{ rep := [], rows := [{ name := "n", comment := "!!" }] }] :=
  (empty_comment_singleton_groups 1 (by norm_num) [] []
    { name := "n", comment := "!!" }).1 (by decide)

/-- C8 counterexample: on the four reviews `"xyzzzz", "xy", "x", "y"` in
this order, raising the threshold from `2/5` to `3/5` lowers the group count
from `3` to `2`: at the lower threshold `"xy"` (score `1/2` against
`"xyzzzz"`) is absorbed into the first group, whose representative stays
`"xyzzzz"`, leaving `"x"` and `"y"` (scores `2/7`) to open singleton
groups; at the higher threshold `"xy"` opens its own group, which then
absorbs both `"x"` and `"y"` (scores `2/3`). -/
theorem grouper_not_monotone :
    mkRat 2 5 ≤ mkRat 3 5 ∧
    (dedupe_across_locations (mkRat 3 5)
        [{ name := "n", comment := "xyzzzz" }, { name := "n", comment := "xy" },
         { name := "n", comment := "x" }, { name := "n", comment := "y" }]).length <
    (dedupe_across_locations (mkRat 2 5)
        [{ name := "n", comment := "xyzzzz" }, { name := "n", comment := "xy" },
         { name := "n", comment := "x" }, { name := "n", comment := "y" }]).length := by
  decide

theorem placeReview_some_length (t : ℚ) (r : Review) (nc : List Char) :
    ∀ gs gs', placeReview t r nc gs = some gs' → gs'.length = gs.length := by
  intro gs
  induction gs with
  | nil => intro gs' h; simp [placeReview] at h
  | cons g gs ih =>
    intro gs' h
    rw [placeReview] at h
    by_cases hc : g.rep ≠ [] ∧ t ≤ ratioOf g.rep nc
    · rw [if_pos hc] at h
      obtain rfl := Option.some.inj h
      simp
    · rw [if_neg hc] at h
      cases hrec : placeReview t r nc gs with
      | none => rw [hrec] at h; simp at h
      | some gs'' =>
        rw [hrec] at h
        obtain rfl := Option.some.inj h
        simp [ih gs'' hrec]

theorem placeReview_mono (t1 t2 : ℚ) (hle : t1 ≤ t2) (r : Review) (nc : List Char) :
    ∀ gs gs', placeReview t2 r nc gs = some gs' →
      ∃ gs'', placeReview t1 r nc gs = some gs'' := by
  intro gs
  induction gs with
  | nil => intro gs' h; simp [placeReview] at h
  | cons g gs ih =>
    intro gs' h
    rw [placeReview] at h
    by_cases hc1 : g.rep ≠ [] ∧ t1 ≤ ratioOf g.rep nc
    · exact ⟨_, by rw [placeReview, if_pos hc1]⟩
    · have hc2 : ¬(g.rep ≠ [] ∧ t2 ≤ ratioOf g.rep nc) := by
        rintro ⟨hrep, hle2⟩
        exact hc1 ⟨hrep, le_trans hle hle2⟩
      rw [if_neg hc2] at h
      rw [placeReview, if_neg hc1]
      cases hrec : placeReview t2 r nc gs with
      | none => rw [hrec] at h; simp at h
      | some gs'' =>
        obtain ⟨gsr, h3⟩ := ih gs'' hrec
        rw [h3]
        exact ⟨_, rfl⟩

theorem grouperStep_length (t : ℚ) (gs : List RGroup) (r : Review) :
    (grouperStep t gs r).length = gs.length ∨
    (grouperStep t gs r).length = gs.length + 1 := by
  rw [grouperStep]
  cases hp : placeReview t r (normList r.comment.data) gs with
  | none => right; simp
  | some gs' => left; exact placeReview_some_length _ _ _ gs gs' hp

theorem grouperStep_length_mono (t1 t2 : ℚ) (hle : t1 ≤ t2) (gs : List RGroup)
    (r : Review) :
    (grouperStep t1 gs r).length ≤ (grouperStep t2 gs r).length := by
  rw [grouperStep, grouperStep]
  cases hp2 : placeReview t2 r (normList r.comment.data) gs with
  | some gs2 =>
    obtain ⟨gs1, hp1⟩ := placeReview_mono t1 t2 hle r _ gs gs2 hp2
    rw [hp1]
    rw [placeReview_some_length _ _ _ _ _ hp1, placeReview_some_length _ _ _ _ _ hp2]
  | none =>
    cases hp1 : placeReview t1 r (normList r.comment.data) gs with
    | some gs1 =>
      rw [placeReview_some_length _ _ _ _ _ hp1]
      simp
    | none => simp

theorem placeReview_singleton (t : ℚ) (r : Review) (nc : List Char) (g : RGroup)
    (gs' : List RGroup) (h : placeReview t r nc [g] = some gs') :
    gs' = [{ rep := if g.rep.length < nc.length then nc else g.rep,
             rows := g.rows ++ [r] }] := by
  rw [placeReview] at h
  by_cases hc : g.rep ≠ [] ∧ t ≤ ratioOf g.rep nc
  · rw [if_pos hc] at h
    exact (Option.some.inj h).symm
  · rw [if_neg hc] at h
    simp [placeReview] at h

/-- C8 (amended): group-count monotonicity in the threshold holds for every
input of at most three reviews (for four it fails, see the counterexample:
at a lower threshold an early absorption can hide a review behind a
dissimilar representative, while at a higher threshold that review founds a
group that later attracts several others). -/
theorem grouper_monotone_of_short (t1 t2 : ℚ) (hle : t1 ≤ t2) (rows : List Review)
    (hlen : rows.length ≤ 3) :
    (dedupe_across_locations t1 rows).length ≤ (dedupe_across_locations t2 rows).length := by
  rcases rows with _ | ⟨a, rows⟩
  · exact le_refl _
  rcases rows with _ | ⟨b, rows⟩
  · exact le_of_eq rfl
  rcases rows with _ | ⟨c, rows⟩
  · have e : ∀ t : ℚ, dedupe_across_locations t [a, b] =
        grouperStep t [{ rep := normList a.comment.data, rows := [a] }] b :=
      fun t => rfl
    rw [e t1, e t2]
    exact grouperStep_length_mono t1 t2 hle _ b
  rcases rows with _ | ⟨d, rows⟩
  · have e : ∀ t : ℚ, dedupe_across_locations t [a, b, c] =
        grouperStep t (grouperStep t [{ rep := normList a.comment.data, rows := [a] }] b) c :=
      fun t => rfl
    rw [e t1, e t2]
    cases hp2 : placeReview t2 b (normList b.comment.data)
        [{ rep := normList a.comment.data, rows := [a] }] with
    | some gs2 =>
      obtain ⟨gs1, hp1⟩ := placeReview_mono t1 t2 hle b _ _ gs2 hp2
      have e2 : grouperStep t2 [{ rep := normList a.comment.data, rows := [a] }] b = gs2 := by
        rw [grouperStep, hp2]
      have e1 : grouperStep t1 [{ rep := normList a.comment.data, rows := [a] }] b = gs1 := by
        rw [grouperStep, hp1]
      rw [e1, e2, placeReview_singleton t1 b _ _ gs1 hp1,
        placeReview_singleton t2 b _ _ gs2 hp2]
      exact grouperStep_length_mono t1 t2 hle _ c
    | none =>
      have e2 : grouperStep t2 [{ rep := normList a.comment.data, rows := [a] }] b =
          [{ rep := normList a.comment.data, rows := [a] },
           { rep := normList b.comment.data, rows := [b] }] := by
        rw [grouperStep, hp2]
        rfl
      cases hp1 : placeReview t1 b (normList b.comment.data)
          [{ rep := normList a.comment.data, rows := [a] }] with
      | none =>
        have e1 : grouperStep t1 [{ rep := normList a.comment.data, rows := [a] }] b =
            [{ rep := normList a.comment.data, rows := [a] },
             { rep := normList b.comment.data, rows := [b] }] := by
          rw [grouperStep, hp1]
          rfl
        rw [e1, e2]
        exact grouperStep_length_mono t1 t2 hle _ c
      | some gs1 =>
        have e1 : grouperStep t1 [{ rep := normList a.comment.data, rows := [a] }] b = gs1 := by
          rw [grouperStep, hp1]
        have hl1 : gs1.length = 1 := placeReview_some_length _ _ _ _ _ hp1
        rw [e1, e2]
        rcases grouperStep_length t1 gs1 c with h1 | h1 <;>
          rcases grouperStep_length t2 [{ rep := normList a.comment.data, rows := [a] },
            { rep := normList b.comment.data, rows := [b] }] c with h2 | h2 <;>
          simp only [List.length_cons, List.length_nil] at h1 h2 ⊢ <;> omega
  · simp only [List.length_cons] at hlen
    omega

theorem grouper_monotone_of_short_witness :
    (dedupe_across_locations 0 [{ name := "n", comment := "x" }]).length ≤
      (dedupe_across_locations 1 [{ name := "n", comment := "x" }]).length :=
  grouper_monotone_of_short 0 1 (by norm_num) [{ name := "n", comment := "x" }] (by simp)

end MergeReviews
